import Mathlib

/-!
# CommandLine (Arduino command-line UI library): a shallow embedding

This file embeds the character-level line editor and command dispatcher of
the CommandLine library (`src/CommandLine.cpp`, `src/CommandLine.h`, with
`src/UserInput.cpp` its historical twin) and proves properties of the
embedding.

Buffers and stream bytes are `List Char`; the handler table is the physical
array of `CMD_MAX_HANDLERS` name slots (default-initialized to the empty
string) plus the registered-handler count, as in the C++ class.  Handlers
are identified by their table index; the dispatch decision is recorded as a
`Dispatch` value instead of actually calling a function pointer.
-/

namespace CmdLn

/-- `CMD_MAX_HANDLERS` from CommandLine.h. -/
def CMD_MAX_HANDLERS : Nat := 16

/-- `CMD_PROMPT` from CommandLine.h, as the bytes `Stream::print` emits. -/
def promptChars : List Char := ['>', ' ']

/-- The ctrl-D ("repeat last command") byte, 0x04. -/
def ctrlD : Char := Char.ofNat 4

/-- The backspace byte, 0x08. -/
def bsChar : Char := Char.ofNat 8

/-- `isspace` as used by Arduino `String::trim`. -/
def isspace (c : Char) : Bool :=
  c = ' ' || c = '\t' || c = '\n' || c = Char.ofNat 11 || c = Char.ofNat 12 || c = '\r'

/-- Arduino `String::trim`: remove leading and trailing whitespace. -/
def trim (l : List Char) : List Char :=
  ((l.dropWhile (fun c => isspace c)).reverse.dropWhile (fun c => isspace c)).reverse

/-- The `while (startAt < len && charAt(startAt) == ' ') startAt++;` loop of
`CommandLine::getWord`, viewed as acting on the suffix from `startAt`. -/
def skipSpaces : List Char → List Char
  | [] => []
  | c :: cs => if c = ' ' then skipSpaces cs else c :: cs

/-- The `while (startAt < len && charAt(startAt) != ' ') startAt++;` loop of
`CommandLine::getWord`, viewed as acting on the suffix from `startAt`. -/
def skipWord : List Char → List Char
  | [] => []
  | c :: cs => if c = ' ' then c :: cs else skipWord cs

/-- The final `while (startAt < len && charAt(startAt) != ' ') answer += ...`
loop of `CommandLine::getWord`: collect the word at the front. -/
def takeWordChars : List Char → List Char
  | [] => []
  | c :: cs => if c = ' ' then [] else c :: takeWordChars cs

/-- `CommandLine::getWord(ix)` on the current command line `l`: skip `ix`
(space-run, word) pairs, then skip spaces and collect the next word. -/
def getWord (l : List Char) : Nat → List Char
  | 0 => takeWordChars (skipSpaces l)
  | ix + 1 => getWord (skipWord (skipSpaces l)) ix

/-- The dispatch decision made by `CommandLine::process`: invoke the handler
in table slot `ix`, invoke the default handler, or invoke nothing. -/
inductive Dispatch where
  | table (ix : Nat)
  | dflt
  | nothing
deriving Repr, DecidableEq

/-- The state of a `CommandLine` object (the command-table, configuration and
editor fields of the C++ class; function pointers are dropped: table handlers
are identified by slot index and the default handler by presence). -/
structure CL where
  /-- `cmds[CMD_MAX_HANDLERS]`: the physical array of name slots. -/
  cmds : List (List Char)
  /-- `handlerCount`: how many slots hold registered handlers. -/
  handlerCount : Nat
  /-- whether `defaultHandler != NULL`. -/
  hasDefault : Bool
  /-- `echoing`. -/
  echoing : Bool
  /-- `commandLine`: the accumulating line buffer. -/
  commandLine : List Char
  /-- `lastCommandLine`: the last-line buffer. -/
  lastCommandLine : List Char
  /-- `newCmd`: true after a command is processed and before more input. -/
  newCmd : Bool
deriving Repr, DecidableEq

/-- The constructor `CommandLine::CommandLine(Stream&, bool echo)`:
`defaultHandler = defaultUnrecognizedCmdHandler` (non-null), zero handlers,
empty buffers, `newCmd = true`; the `cmds` array holds default-constructed
(empty) strings. -/
def initState (echo : Bool) : CL :=
  { cmds := List.replicate CMD_MAX_HANDLERS []
    handlerCount := 0
    hasDefault := true
    echoing := echo
    commandLine := []
    lastCommandLine := []
    newCmd := true }

/-- `CommandLine::attachCmdHandler(cmd, handler)`: if below capacity, store
the name at slot `handlerCount`, bump the count, return true; else return
false, unchanged. -/
def attachCmdHandler (st : CL) (cmd : List Char) : CL × Bool :=
  if st.handlerCount < CMD_MAX_HANDLERS then
    ({ st with cmds := st.cmds.set st.handlerCount cmd
               handlerCount := st.handlerCount + 1 }, true)
  else (st, false)

/-- `CommandLine::attachDefaultCmdHandler(handler)`: unconditionally replace
the default handler; `h` records whether the new pointer is non-null. -/
def attachDefaultCmdHandler (st : CL) (h : Bool) : CL :=
  { st with hasDefault := h }

/-- `CommandLine::cancelCmd()`: `newCmd = true`. -/
def cancelCmd (st : CL) : CL :=
  { st with newCmd := true }

/-- The command-lookup loop of `CommandLine::process`:
`int8_t ix = 0; do { if (cmd.equals(cmds[ix])) break; } while (++ix < handlerCount);`
started at `ix`.  Note the do-while tests slot `ix` before testing the loop
condition, so slot 0 is consulted even when `handlerCount = 0`. -/
def scanAux (cmds : List (List Char)) (handlerCount : Nat) (cmd : List Char) :
    Nat → Nat → Nat
  | ix, 0 => if cmd = cmds.getD ix [] then ix else ix + 1
  | ix, fuel + 1 =>
    if cmd = cmds.getD ix [] then ix
    else if ix + 1 < handlerCount then scanAux cmds handlerCount cmd (ix + 1) fuel
    else ix + 1

/-- The lookup loop started at index `ix`.  The bound `handlerCount - (ix+1)`
on the remaining iterations is exact, so `scanAux` never runs out of fuel;
the theorem `scan_eq` below recovers the loop's recurrence. -/
def scan (cmds : List (List Char)) (handlerCount : Nat) (cmd : List Char) (ix : Nat) : Nat :=
  scanAux cmds handlerCount cmd ix (handlerCount - (ix + 1))

/-- `CommandLine::process()`: trim the line buffer in place, extract word 0;
ignore zero-length commands; otherwise run the lookup loop and decide which
handler (table slot, default, or none) gets invoked. -/
def process (st : CL) : CL × Dispatch :=
  let st1 := { st with commandLine := trim st.commandLine }
  let cmd := getWord st1.commandLine 0
  if cmd.length = 0 then (st1, Dispatch.nothing)
  else
    let ix := scan st1.cmds st1.handlerCount cmd 0
    if ix = st1.handlerCount then
      if st1.hasDefault then (st1, Dispatch.dflt) else (st1, Dispatch.nothing)
    else (st1, Dispatch.table ix)

/-- `if (echoing) stream->print(...)`: the bytes echo writes. -/
def echoIf (e : Bool) (l : List Char) : List Char :=
  if e then l else []

/-- The body of the `switch (c)` in `CommandLine::run()` for one input byte:
the new state, the bytes written to the stream, and `some d` exactly when the
byte was `\r` (the `return` path, `d` the dispatch decision). -/
def step (st : CL) (c : Char) : CL × List Char × Option Dispatch :=
  if c = bsChar then
    if st.commandLine.length > 0 then
      ({ st with commandLine := st.commandLine.dropLast },
       echoIf st.echoing [bsChar, ' ', bsChar], none)
    else (st, [], none)
  else if c = '\r' then
    let p := process st
    ({ p.1 with newCmd := true }, echoIf st.echoing ['\n'], some p.2)
  else if c = '\n' then (st, [], none)
  else if c = '\t' then
    ({ st with commandLine := st.commandLine ++ [' '] }, echoIf st.echoing [' '], none)
  else if c = ctrlD then
    if st.commandLine = [] ∧ st.lastCommandLine ≠ [] then
      ({ st with commandLine := st.lastCommandLine },
       echoIf st.echoing st.lastCommandLine, none)
    else (st, [], none)
  else
    ({ st with commandLine := st.commandLine ++ [c] }, echoIf st.echoing [c], none)

/-- The result of one call to `CommandLine::run()` on the currently available
stream bytes: the new object state, the bytes written to the stream, the
available bytes left unconsumed in the stream, and the dispatch decision if a
`\r` was consumed. -/
structure RunResult where
  state : CL
  output : List Char
  remaining : List Char
  dispatched : Option Dispatch
deriving Repr, DecidableEq

/-- The `while (stream->available())` loop of `CommandLine::run()`: feed the
available bytes one at a time through `step`; on `\r`, return at once leaving
the rest of the bytes in the stream. -/
def runLoop (st : CL) : List Char → RunResult
  | [] => { state := st, output := [], remaining := [], dispatched := none }
  | c :: rest =>
    match step st c with
    | (st', out, some d) =>
      { state := st', output := out, remaining := rest, dispatched := some d }
    | (st', out, none) =>
      let r := runLoop st' rest
      { r with output := out ++ r.output }

/-- The entry action of `CommandLine::run()`: if `newCmd`, print the prompt
(when echoing), save the line buffer as the last line, clear it and clear
`newCmd`. -/
def runEntry (st : CL) : CL × List Char :=
  if st.newCmd then
    ({ st with lastCommandLine := st.commandLine
               commandLine := []
               newCmd := false },
     echoIf st.echoing promptChars)
  else (st, [])

/-- `CommandLine::run()` on the list of currently available stream bytes. -/
def run (st : CL) (input : List Char) : RunResult :=
  let e := runEntry st
  let r := runLoop e.1 input
  { r with output := e.2 ++ r.output }

/-- The word decomposition the SPEC describes: the maximal runs of non-space
characters of `l`, in order, collected with an accumulator. -/
def wordsOfAux (cur : List Char) : List Char → List (List Char)
  | [] => if cur = [] then [] else [cur.reverse]
  | c :: cs =>
    if c = ' ' then
      if cur = [] then wordsOfAux [] cs else cur.reverse :: wordsOfAux [] cs
    else wordsOfAux (c :: cur) cs

/-- The maximal runs of non-space characters of `l`, in order. -/
def wordsOf (l : List Char) : List (List Char) :=
  wordsOfAux [] l

/-- A sequence of `attachCmdHandler` registrations, one per listed name
(results discarded, as in a setup function that registers many commands). -/
def attachAll (st : CL) : List (List Char) → CL
  | [] => st
  | c :: cs => attachAll (attachCmdHandler st c).1 cs

/-- Replace only the `echoing` configuration flag of a state. -/
def setEcho (st : CL) (e : Bool) : CL :=
  { st with echoing := e }

/-- Modelled from the spec: the V1.0.0 `CommandLine::process` body for
String-returning handlers.  CommandLine.h declares
`commandHandler_t = String (*)(CommandHandlerHelper*)` and documents that "a
command handler returns a String whose contents the CommandLine object will
present to the user", but the .cpp implementing that dispatch is not among
the sources (the present CommandLine.cpp body calls void-style
`(*handler)(this, stream)` and writes nothing on the handler's behalf).
Following the spec: trim the line, take word 0, ignore a blank line;
otherwise scan the table in registration order for the first exact
case-sensitive name match, invoke its handler (or the default when no entry
matches and one is registered), and write the returned string to the stream.
`handlers ix` is the string returned by the handler in slot `ix` and
`dfltResp` the one returned by the default handler; the second component is
the bytes the dispatcher writes. -/
def processV1 (st : CL) (handlers : Nat → List Char) (dfltResp : List Char) :
    CL × List Char :=
  let st1 := { st with commandLine := trim st.commandLine }
  let cmd := getWord st1.commandLine 0
  if cmd.length = 0 then (st1, [])
  else
    match (List.range st1.handlerCount).find? (fun i => st1.cmds.getD i [] = cmd) with
    | some i => (st1, handlers i)
    | none => if st1.hasDefault then (st1, dfltResp) else (st1, [])

/-- The states a `CommandLine` object can reach: freshly constructed, or the
result of any public operation applied to a reachable state. -/
inductive Reachable : CL → Prop where
  | initStep (echo : Bool) : Reachable (initState echo)
  | runStep (st : CL) (input : List Char) :
      Reachable st → Reachable ((run st input).state)
  | cancelStep (st : CL) : Reachable st → Reachable (cancelCmd st)
  | attachStep (st : CL) (cmd : List Char) :
      Reachable st → Reachable ((attachCmdHandler st cmd).1)
  | attachDefaultStep (st : CL) (h : Bool) :
      Reachable st → Reachable (attachDefaultCmdHandler st h)

/-! ## Helper lemmas -/

theorem process_fst (st : CL) :
    (process st).1 = { st with commandLine := trim st.commandLine } := by
  unfold process
  dsimp only
  split_ifs <;> rfl

theorem step_fields (st : CL) (c : Char) :
    (step st c).1.lastCommandLine = st.lastCommandLine ∧
    (step st c).1.cmds = st.cmds ∧
    (step st c).1.handlerCount = st.handlerCount ∧
    (step st c).1.hasDefault = st.hasDefault ∧
    (step st c).1.echoing = st.echoing := by
  unfold step
  split_ifs <;> simp [process_fst]

theorem step_ne_cr (st : CL) (c : Char) (h : c ≠ '\r') :
    (step st c).2.2 = none ∧ (step st c).1.newCmd = st.newCmd := by
  unfold step
  split_ifs <;> simp_all

theorem step_cr (st : CL) :
    step st '\r' =
      ({ (process st).1 with newCmd := true }, echoIf st.echoing ['\n'],
        some (process st).2) := by
  unfold step
  rw [if_neg (by decide), if_pos rfl]

theorem step_some_newCmd (st : CL) (c : Char) (h : (step st c).2.2.isSome = true) :
    (step st c).1.newCmd = true := by
  by_cases hc : c = '\r'
  · subst hc; rw [step_cr]
  · rw [(step_ne_cr st c hc).1] at h; simp at h

theorem runLoop_fields (st : CL) (input : List Char) :
    (runLoop st input).state.lastCommandLine = st.lastCommandLine ∧
    (runLoop st input).state.cmds = st.cmds ∧
    (runLoop st input).state.handlerCount = st.handlerCount ∧
    (runLoop st input).state.hasDefault = st.hasDefault ∧
    (runLoop st input).state.echoing = st.echoing := by
  induction input generalizing st with
  | nil => simp [runLoop]
  | cons c rest ih =>
    have hp := step_fields st c
    rcases hstep : step st c with ⟨st', out, d⟩
    rw [hstep] at hp
    cases d with
    | some dd => simp only [runLoop, hstep]; exact hp
    | none =>
      obtain ⟨h1, h2, h3, h4, h5⟩ := ih st'
      obtain ⟨p1, p2, p3, p4, p5⟩ := hp
      simp only [runLoop, hstep]
      exact ⟨h1.trans p1, h2.trans p2, h3.trans p3, h4.trans p4, h5.trans p5⟩


theorem runLoop_no_cr (st : CL) (input : List Char) (h : '\r' ∉ input) :
    (runLoop st input).dispatched = none ∧
    (runLoop st input).remaining = [] ∧
    (runLoop st input).state.newCmd = st.newCmd := by
  induction input generalizing st with
  | nil => simp [runLoop]
  | cons c rest ih =>
    have hc : c ≠ '\r' := fun hc => h (hc ▸ List.mem_cons_self c rest)
    have hrest : '\r' ∉ rest := fun hr => h (List.mem_cons_of_mem c hr)
    have hs := step_ne_cr st c hc
    rcases hstep : step st c with ⟨st', out, d⟩
    rw [hstep] at hs
    obtain ⟨hd, hn⟩ := hs
    dsimp only at hd hn
    subst hd
    obtain ⟨i1, i2, i3⟩ := ih st' hrest
    simp only [runLoop, hstep]
    exact ⟨i1, i2, i3.trans hn⟩

theorem runLoop_cr (st : CL) (pre post : List Char) (h : '\r' ∉ pre) :
    (runLoop st (pre ++ '\r' :: post)).dispatched.isSome = true ∧
    (runLoop st (pre ++ '\r' :: post)).remaining = post ∧
    (runLoop st (pre ++ '\r' :: post)).state.newCmd = true := by
  induction pre generalizing st with
  | nil =>
    simp [List.nil_append, runLoop, step_cr]
  | cons c pre' ih =>
    have hc : c ≠ '\r' := fun hc => h (hc ▸ List.mem_cons_self c pre')
    have hpre : '\r' ∉ pre' := fun hr => h (List.mem_cons_of_mem c hr)
    have hs := step_ne_cr st c hc
    rcases hstep : step st c with ⟨st', out, d⟩
    rw [hstep] at hs
    obtain ⟨hd, _⟩ := hs
    dsimp only at hd
    subst hd
    simpa only [List.cons_append, runLoop, hstep] using ih st' hpre

theorem runLoop_dispatch_newCmd (st : CL) (input : List Char)
    (h : (runLoop st input).dispatched.isSome = true) :
    (runLoop st input).state.newCmd = true := by
  induction input generalizing st with
  | nil => simp [runLoop] at h
  | cons c rest ih =>
    rcases hstep : step st c with ⟨st', out, d⟩
    cases d with
    | some dd =>
      have hsn := step_some_newCmd st c (by rw [hstep]; rfl)
      rw [hstep] at hsn
      simpa only [runLoop, hstep] using hsn
    | none =>
      rw [runLoop, hstep] at h ⊢
      exact ih st' h

theorem runEntry_fst (st : CL) :
    (runEntry st).1 =
      (if st.newCmd then
        { st with lastCommandLine := st.commandLine, commandLine := [], newCmd := false }
       else st) := by
  unfold runEntry
  split_ifs <;> rfl

theorem run_lastCommandLine (st : CL) (input : List Char) :
    (run st input).state.lastCommandLine =
      (if st.newCmd then st.commandLine else st.lastCommandLine) := by
  unfold run
  dsimp only
  rw [(runLoop_fields (runEntry st).1 input).1, runEntry_fst]
  split_ifs <;> rfl

theorem run_no_cr (st : CL) (input : List Char) (h : '\r' ∉ input) :
    (run st input).dispatched = none ∧
    (run st input).remaining = [] ∧
    (run st input).state.newCmd = false := by
  unfold run
  dsimp only
  obtain ⟨h1, h2, h3⟩ := runLoop_no_cr (runEntry st).1 input h
  refine ⟨h1, h2, h3.trans ?_⟩
  rw [runEntry_fst]
  split_ifs with hn <;> simp_all

/-! ## Claim theorems -/

/-- C1: the claim states that when no table entry matches a non-empty command
name, the default handler (if registered) is invoked and no table handler is
ever invoked, for every table size from 0 up to capacity.  The code violates
this at table size 0: the do-while lookup loop exits with `ix = 1`, which
differs from `handlerCount = 0`, so `process` dispatches table slot 1 — an
unregistered, uninitialized handler slot — instead of the registered default
handler.  This theorem evaluates the embedded code at the failing input: a
freshly constructed object (zero handlers, built-in default handler
registered) fed the line `"bogus\r"`. -/
theorem c1_zero_handlers_dispatches_unregistered_slot :
    (initState true).handlerCount = 0 ∧
    (initState true).hasDefault = true ∧
    (run (initState true) ("bogus\r".toList)).dispatched = some (Dispatch.table 1) ∧
    Dispatch.table 1 ≠ Dispatch.dflt := by
  refine ⟨rfl, rfl, by decide, by decide⟩

/-- C2: per call to `run()`, at most one dispatch occurs and it occurs
exactly when a `\r` byte is consumed: if the available bytes contain no
`\r`, nothing is dispatched, all bytes are consumed, and the
"awaiting new line" flag (`newCmd`) is left unset; if the bytes are
`pre ++ '\r' :: post` with no `\r` in `pre`, a dispatch occurs, `run`
returns immediately leaving `post` unconsumed, and `newCmd` is set. -/
theorem c2_dispatch_iff_cr (st : CL) (input : List Char) :
    ('\r' ∉ input →
      (run st input).dispatched = none ∧
      (run st input).remaining = [] ∧
      (run st input).state.newCmd = false) ∧
    (∀ pre post, input = pre ++ '\r' :: post → '\r' ∉ pre →
      (run st input).dispatched.isSome = true ∧
      (run st input).remaining = post ∧
      (run st input).state.newCmd = true) := by
  constructor
  · exact fun h => run_no_cr st input h
  · intro pre post hin hpre
    subst hin
    unfold run
    dsimp only
    exact runLoop_cr (runEntry st).1 pre post hpre

/-- Witness for `c2_dispatch_iff_cr` at concrete inputs. -/
theorem c2_dispatch_iff_cr_witness :
    ((run (initState false) ['a', 'b']).dispatched = none ∧
     (run (initState false) ['a', 'b']).remaining = [] ∧
     (run (initState false) ['a', 'b']).state.newCmd = false) ∧
    ((run (initState false) ['a', '\r', 'b']).dispatched.isSome = true ∧
     (run (initState false) ['a', '\r', 'b']).remaining = ['b'] ∧
     (run (initState false) ['a', '\r', 'b']).state.newCmd = true) := by
  constructor
  · exact (c2_dispatch_iff_cr (initState false) ['a', 'b']).1 (by decide)
  · exact (c2_dispatch_iff_cr (initState false) ['a', '\r', 'b']).2 ['a'] ['b'] rfl
      (by decide)

theorem scan_eq (cmds : List (List Char)) (count : Nat) (cmd : List Char) (ix : Nat) :
    scan cmds count cmd ix =
      if cmd = cmds.getD ix [] then ix
      else if ix + 1 < count then scan cmds count cmd (ix + 1) else ix + 1 := by
  unfold scan
  by_cases h1 : cmd = cmds.getD ix []
  · cases hf : count - (ix + 1) <;> simp [scanAux, h1]
  · by_cases h2 : ix + 1 < count
    · have hf : count - (ix + 1) = (count - (ix + 2)) + 1 := by omega
      rw [hf]
      simp [scanAux, h1, h2]
    · have hf : count - (ix + 1) = 0 := by omega
      rw [hf]
      simp [scanAux, h1, h2]

/-- C3 counterexample: a concrete trace in which the only accepted line is
`"help"` (first `run` dispatches it; the second `run` merely buffers `"xyz"`
and dispatches nothing), yet after `cancelCmd()` the next `run` call's entry
action copies the discarded, never-accepted `"xyz"` into the last-line
buffer, so the last-line buffer is NOT a copy of the previous accepted line
and is overwritten more than once for that single accepted line. -/
theorem c3_cancel_pollutes_lastline :
    (run (attachCmdHandler (initState false) ("help".toList)).1
        ("help\r".toList)).dispatched = some (Dispatch.table 0) ∧
    (run (run (attachCmdHandler (initState false) ("help".toList)).1
        ("help\r".toList)).state ("xyz".toList)).dispatched = none ∧
    (run (cancelCmd (run (run (attachCmdHandler (initState false) ("help".toList)).1
        ("help\r".toList)).state ("xyz".toList)).state) []).state.lastCommandLine
      = "xyz".toList ∧
    "xyz".toList ≠ "help".toList := by
  refine ⟨by decide, by decide, by decide, by decide⟩

/-- C3 (amended): the last-line buffer is left untouched by the byte-editing
loop and by `cancelCmd` itself, and is overwritten exactly at the entry of a
`run()` call whose `newCmd` flag is set, receiving a copy of whatever the
line buffer then holds; in particular, after a call that dispatched a line
(which sets `newCmd` and leaves the trimmed accepted line in the buffer) the
next call stores that trimmed accepted line — but after `cancelCmd` the
discarded in-progress input is stored instead. -/
theorem c3_amended_lastline_update (st : CL) (input input2 : List Char) :
    (run st input).state.lastCommandLine
      = (if st.newCmd then st.commandLine else st.lastCommandLine) ∧
    (cancelCmd st).lastCommandLine = st.lastCommandLine ∧
    ((run st input).dispatched.isSome = true →
      (run ((run st input).state) input2).state.lastCommandLine
        = (run st input).state.commandLine) := by
  refine ⟨run_lastCommandLine st input, rfl, ?_⟩
  intro h
  have hn : (run st input).state.newCmd = true := by
    unfold run at h ⊢
    dsimp only at h ⊢
    exact runLoop_dispatch_newCmd _ input h
  rw [run_lastCommandLine, if_pos hn]

/-- Witness for `c3_amended_lastline_update` at a concrete input. -/
theorem c3_amended_lastline_update_witness :
    (run (initState false) ['a', '\r']).dispatched.isSome = true ∧
    (run ((run (initState false) ['a', '\r']).state) []).state.lastCommandLine
      = (run (initState false) ['a', '\r']).state.commandLine := by
  exact ⟨by decide,
    (c3_amended_lastline_update (initState false) ['a', '\r'] []).2.2 (by decide)⟩

theorem attachAll_handlerCount (names : List (List Char)) :
    ∀ st : CL, st.handlerCount ≤ CMD_MAX_HANDLERS →
      (attachAll st names).handlerCount
        = min (st.handlerCount + names.length) CMD_MAX_HANDLERS := by
  induction names with
  | nil => intro st h; simp [attachAll]; omega
  | cons n ns ih =>
    intro st h
    unfold attachAll attachCmdHandler
    split_ifs with hc
    · rw [ih _ (by dsimp only; omega)]
      dsimp only
      simp only [List.length_cons]
      omega
    · rw [ih st h]
      simp only [List.length_cons]
      omega

/-- C5: `attachCmdHandler` succeeds (returns true, stores the name at the
next free slot, increments the count) exactly when the table holds fewer
than `CMD_MAX_HANDLERS = 16` entries; at capacity it returns false and
mutates nothing; and after registering `CMD_MAX_HANDLERS` names on a fresh
object, the (capacity+1)-th registration returns false and the table still
holds exactly `CMD_MAX_HANDLERS` entries. -/
theorem c5_attach_iff_capacity (st : CL) (cmd : List Char) (e : Bool)
    (names : List (List Char)) :
    ((attachCmdHandler st cmd).2 = true ↔ st.handlerCount < CMD_MAX_HANDLERS) ∧
    (st.handlerCount < CMD_MAX_HANDLERS →
      (attachCmdHandler st cmd).1
        = { st with cmds := st.cmds.set st.handlerCount cmd
                    handlerCount := st.handlerCount + 1 }) ∧
    (¬ st.handlerCount < CMD_MAX_HANDLERS →
      (attachCmdHandler st cmd).2 = false ∧ (attachCmdHandler st cmd).1 = st) ∧
    (names.length = CMD_MAX_HANDLERS →
      (attachAll (initState e) names).handlerCount = CMD_MAX_HANDLERS ∧
      (attachCmdHandler (attachAll (initState e) names) cmd).2 = false ∧
      (attachCmdHandler (attachAll (initState e) names) cmd).1.handlerCount
        = CMD_MAX_HANDLERS) := by
  have hcnt : ∀ hlen : names.length = CMD_MAX_HANDLERS,
      (attachAll (initState e) names).handlerCount = CMD_MAX_HANDLERS := by
    intro hlen
    rw [attachAll_handlerCount names (initState e) (by simp [initState])]
    simp [initState, hlen]
  refine ⟨?_, ?_, ?_, ?_⟩
  · unfold attachCmdHandler
    split_ifs with hc <;> simp [hc]
  · intro hc
    unfold attachCmdHandler
    rw [if_pos hc]
  · intro hc
    unfold attachCmdHandler
    rw [if_neg hc]
    exact ⟨rfl, rfl⟩
  · intro hlen
    have h1 := hcnt hlen
    refine ⟨h1, ?_, ?_⟩
    · unfold attachCmdHandler
      rw [if_neg (by omega)]
    · unfold attachCmdHandler
      rw [if_neg (by omega)]
      exact h1

/-- Witness for `c5_attach_iff_capacity` at concrete inputs. -/
theorem c5_attach_iff_capacity_witness :
    (attachCmdHandler (initState true) ['a']).2 = true ∧
    (attachAll (initState true) (List.replicate CMD_MAX_HANDLERS ['x'])).handlerCount
      = CMD_MAX_HANDLERS ∧
    (attachCmdHandler (attachAll (initState true) (List.replicate CMD_MAX_HANDLERS ['x']))
      ['y']).2 = false := by
  refine ⟨?_, ?_, ?_⟩
  · exact (c5_attach_iff_capacity (initState true) ['a'] true []).1.mpr (by decide)
  · exact ((c5_attach_iff_capacity (initState true) ['y'] true
      (List.replicate CMD_MAX_HANDLERS ['x'])).2.2.2 (by decide)).1
  · exact ((c5_attach_iff_capacity (initState true) ['y'] true
      (List.replicate CMD_MAX_HANDLERS ['x'])).2.2.2 (by decide)).2.1

/-- C7: the 0x04 (ctrl-D) byte copies the last-line buffer into the line
buffer (echoing it when echo is on) exactly when the line buffer is empty
and the last-line buffer is non-empty, and otherwise changes nothing and
writes nothing; consequently, after accepting `"help\r"`, feeding `0x04`
then `\r` accepts `"help"` again and dispatches the same handler. -/
theorem c7_ctrlD_recall (st : CL) :
    (st.commandLine = [] → st.lastCommandLine ≠ [] →
      step st ctrlD
        = ({ st with commandLine := st.lastCommandLine },
           echoIf st.echoing st.lastCommandLine, none)) ∧
    (¬ (st.commandLine = [] ∧ st.lastCommandLine ≠ []) →
      step st ctrlD = (st, [], none)) ∧
    ((run (run (attachCmdHandler (initState false) ("help".toList)).1
        ("help\r".toList)).state [ctrlD, '\r']).dispatched
      = some (Dispatch.table 0) ∧
     (run (run (attachCmdHandler (initState false) ("help".toList)).1
        ("help\r".toList)).state [ctrlD, '\r']).state.commandLine = "help".toList ∧
     (run (attachCmdHandler (initState false) ("help".toList)).1
        ("help\r".toList)).dispatched = some (Dispatch.table 0)) := by
  refine ⟨?_, ?_, by decide, by decide, by decide⟩
  · intro h1 h2
    unfold step
    rw [if_neg (by decide), if_neg (by decide), if_neg (by decide), if_neg (by decide),
      if_pos rfl, if_pos ⟨h1, h2⟩]
  · intro h
    unfold step
    rw [if_neg (by decide), if_neg (by decide), if_neg (by decide), if_neg (by decide),
      if_pos rfl, if_neg h]

/-- Witness for `c7_ctrlD_recall` at a concrete state. -/
theorem c7_ctrlD_recall_witness :
    step { initState true with lastCommandLine := ['h'] } ctrlD
      = ({ { initState true with lastCommandLine := ['h'] } with
            commandLine := ({ initState true with lastCommandLine := ['h'] } : CL).lastCommandLine },
         echoIf ({ initState true with lastCommandLine := ['h'] } : CL).echoing
           ({ initState true with lastCommandLine := ['h'] } : CL).lastCommandLine, none) ∧
    step { initState true with commandLine := ['q'], lastCommandLine := ['h'] } ctrlD
      = ({ initState true with commandLine := ['q'], lastCommandLine := ['h'] }, [], none) := by
  constructor
  · exact (c7_ctrlD_recall { initState true with lastCommandLine := ['h'] }).1 rfl (by decide)
  · exact (c7_ctrlD_recall
      { initState true with commandLine := ['q'], lastCommandLine := ['h'] }).2.1 (by decide)

theorem process_setEcho (st : CL) (e : Bool) :
    process (setEcho st e) = (setEcho (process st).1 e, (process st).2) := by
  unfold process setEcho
  dsimp only
  split_ifs <;> rfl

theorem setEcho_commandLine (st : CL) (e : Bool) :
    (setEcho st e).commandLine = st.commandLine := rfl

theorem setEcho_lastCommandLine (st : CL) (e : Bool) :
    (setEcho st e).lastCommandLine = st.lastCommandLine := rfl

theorem step_setEcho (st : CL) (e : Bool) (c : Char) :
    (step (setEcho st e) c).1 = setEcho (step st c).1 e ∧
    (step (setEcho st e) c).2.2 = (step st c).2.2 := by
  unfold step
  simp only [setEcho_commandLine, setEcho_lastCommandLine]
  split_ifs <;>
    first
      | exact ⟨rfl, rfl⟩
      | (rw [process_setEcho]; exact ⟨rfl, rfl⟩)

theorem runLoop_setEcho (st : CL) (e : Bool) (input : List Char) :
    (runLoop (setEcho st e) input).state = setEcho (runLoop st input).state e ∧
    (runLoop (setEcho st e) input).dispatched = (runLoop st input).dispatched ∧
    (runLoop (setEcho st e) input).remaining = (runLoop st input).remaining := by
  induction input generalizing st with
  | nil => simp [runLoop]
  | cons c rest ih =>
    obtain ⟨h1, h2⟩ := step_setEcho st e c
    rcases hstep : step st c with ⟨st', out, d⟩
    rcases hstep2 : step (setEcho st e) c with ⟨st2, out2, d2⟩
    rw [hstep, hstep2] at h1 h2
    dsimp only at h1 h2
    subst h1
    subst h2
    cases d2 with
    | some dd => simp [runLoop, hstep, hstep2]
    | none =>
      obtain ⟨i1, i2, i3⟩ := ih st'
      simp only [runLoop, hstep, hstep2]
      exact ⟨i1, i2, i3⟩

theorem runEntry_setEcho (st : CL) (e : Bool) :
    (runEntry (setEcho st e)).1 = setEcho (runEntry st).1 e := by
  unfold runEntry
  dsimp only [setEcho]
  split_ifs <;> rfl

theorem run_setEcho (st : CL) (e : Bool) (input : List Char) :
    (run (setEcho st e) input).state = setEcho (run st input).state e ∧
    (run (setEcho st e) input).dispatched = (run st input).dispatched ∧
    (run (setEcho st e) input).remaining = (run st input).remaining := by
  unfold run
  dsimp only
  rw [runEntry_setEcho]
  obtain ⟨a1, a2, a3⟩ := runLoop_setEcho (runEntry st).1 e input
  exact ⟨a1, a2, a3⟩

/-- C10: two `run()` calls on states differing only in the `echoing`
configuration flag produce the same line buffer, last-line buffer,
`newCmd` flag, handler table, dispatch decision and unconsumed bytes:
their final states differ at most in the `echoing` field itself, so the
echo setting influences only the bytes written to the stream. -/
theorem c10_echo_noninterference (st : CL) (input : List Char) (e1 e2 : Bool) :
    (run (setEcho st e1) input).state
      = setEcho ((run (setEcho st e2) input).state) e1 ∧
    (run (setEcho st e1) input).dispatched = (run (setEcho st e2) input).dispatched ∧
    (run (setEcho st e1) input).remaining = (run (setEcho st e2) input).remaining := by
  obtain ⟨a1, a2, a3⟩ := run_setEcho st e1 input
  obtain ⟨b1, b2, b3⟩ := run_setEcho st e2 input
  refine ⟨?_, a2.trans b2.symm, a3.trans b3.symm⟩
  rw [a1, b1]
  rfl

theorem mem_of_mem_dropWhile {p : Char → Bool} :
    ∀ {l : List Char} {c : Char}, c ∈ l.dropWhile p → c ∈ l := by
  intro l
  induction l with
  | nil => intro c h; exact absurd h (List.not_mem_nil c)
  | cons a as ih =>
    intro c h
    rw [List.dropWhile_cons] at h
    split_ifs at h with hp
    · exact List.mem_cons_of_mem a (ih h)
    · exact h

theorem mem_of_mem_trim {c : Char} {l : List Char} (h : c ∈ trim l) : c ∈ l := by
  unfold trim at h
  rw [List.mem_reverse] at h
  have h2 := mem_of_mem_dropWhile h
  rw [List.mem_reverse] at h2
  exact mem_of_mem_dropWhile h2

theorem step_no_cr (st : CL) (c : Char)
    (h1 : '\r' ∉ st.commandLine) (h2 : '\r' ∉ st.lastCommandLine) :
    '\r' ∉ (step st c).1.commandLine ∧ '\r' ∉ (step st c).1.lastCommandLine := by
  unfold step
  split_ifs with hb hn hr hl ht hd hcopy
  · exact ⟨fun hm => h1 ((List.dropLast_sublist st.commandLine).subset hm), h2⟩
  · exact ⟨h1, h2⟩
  · dsimp only
    rw [process_fst]
    exact ⟨fun hm => h1 (mem_of_mem_trim hm), h2⟩
  · exact ⟨h1, h2⟩
  · refine ⟨fun hm => ?_, h2⟩
    rcases List.mem_append.mp hm with hm | hm
    · exact h1 hm
    · simp at hm
  · exact ⟨h2, h2⟩
  · exact ⟨h1, h2⟩
  · refine ⟨fun hm => ?_, h2⟩
    rcases List.mem_append.mp hm with hm | hm
    · exact h1 hm
    · simp at hm
      exact hr hm.symm

theorem runLoop_no_cr_inv (st : CL) (input : List Char)
    (h1 : '\r' ∉ st.commandLine) (h2 : '\r' ∉ st.lastCommandLine) :
    '\r' ∉ (runLoop st input).state.commandLine ∧
    '\r' ∉ (runLoop st input).state.lastCommandLine := by
  induction input generalizing st with
  | nil => exact ⟨h1, h2⟩
  | cons c rest ih =>
    obtain ⟨s1, s2⟩ := step_no_cr st c h1 h2
    rcases hstep : step st c with ⟨st', out, d⟩
    rw [hstep] at s1 s2
    dsimp only at s1 s2
    cases d with
    | some dd => simp only [runLoop, hstep]; exact ⟨s1, s2⟩
    | none =>
      simp only [runLoop, hstep]
      exact ih st' s1 s2

theorem run_no_cr_inv (st : CL) (input : List Char)
    (h1 : '\r' ∉ st.commandLine) (h2 : '\r' ∉ st.lastCommandLine) :
    '\r' ∉ (run st input).state.commandLine ∧
    '\r' ∉ (run st input).state.lastCommandLine := by
  unfold run
  dsimp only
  have he : '\r' ∉ (runEntry st).1.commandLine ∧ '\r' ∉ (runEntry st).1.lastCommandLine := by
    rw [runEntry_fst]
    split_ifs
    · exact ⟨List.not_mem_nil '\r', h1⟩
    · exact ⟨h1, h2⟩
  exact runLoop_no_cr_inv _ input he.1 he.2

theorem reachable_no_cr {st : CL} (h : Reachable st) :
    '\r' ∉ st.commandLine ∧ '\r' ∉ st.lastCommandLine := by
  induction h with
  | initStep echo => exact ⟨List.not_mem_nil '\r', List.not_mem_nil '\r'⟩
  | runStep st input _ ih => exact run_no_cr_inv st input ih.1 ih.2
  | cancelStep st _ ih => exact ih
  | attachStep st cmd _ ih =>
    unfold attachCmdHandler
    split_ifs <;> exact ih
  | attachDefaultStep st hdl _ ih => exact ih

/-- C8: in every reachable state of a `CommandLine` object, the line buffer
contains no `\r`: the terminator is consumed and turned into a dispatch,
never stored, and no other transition introduces it (the 0x04 recall path
cannot either, because the last-line buffer never contains `\r` in a
reachable state). -/
theorem c8_buffer_never_holds_cr (st : CL) (h : Reachable st) :
    '\r' ∉ st.commandLine := (reachable_no_cr h).1

/-- Witness for `c8_buffer_never_holds_cr`: a concrete reachable state. -/
theorem c8_buffer_never_holds_cr_witness :
    '\r' ∉ ((run (initState true) ("ab\r".toList)).state).commandLine :=
  c8_buffer_never_holds_cr _ (Reachable.runStep (initState true) ("ab\r".toList)
    (Reachable.initStep true))

theorem scan_spec (cmds : List (List Char)) (count : Nat) (cmd : List Char) :
    ∀ ix, ix ≤ scan cmds count cmd ix ∧
      (ix < count → scan cmds count cmd ix ≤ count) ∧
      (scan cmds count cmd ix < count → cmds.getD (scan cmds count cmd ix) [] = cmd) ∧
      (∀ k, ix ≤ k → k < scan cmds count cmd ix → cmds.getD k [] ≠ cmd) := by
  have H : ∀ n ix, count - ix ≤ n →
      ix ≤ scan cmds count cmd ix ∧
      (ix < count → scan cmds count cmd ix ≤ count) ∧
      (scan cmds count cmd ix < count → cmds.getD (scan cmds count cmd ix) [] = cmd) ∧
      (∀ k, ix ≤ k → k < scan cmds count cmd ix → cmds.getD k [] ≠ cmd) := by
    intro n
    induction n with
    | zero =>
      intro ix hn
      rw [scan_eq]
      by_cases h1 : cmd = cmds.getD ix []
      · rw [if_pos h1]
        exact ⟨le_refl ix, fun h => by omega, fun _ => h1.symm, fun k hk1 hk2 => by omega⟩
      · rw [if_neg h1, if_neg (by omega)]
        refine ⟨by omega, fun h => by omega, fun h => by omega, fun k hk1 hk2 => ?_⟩
        have : k = ix := by omega
        subst this
        exact fun he => h1 he.symm
    | succ n ihn =>
      intro ix hn
      rw [scan_eq]
      by_cases h1 : cmd = cmds.getD ix []
      · rw [if_pos h1]
        exact ⟨le_refl ix, fun h => by omega, fun _ => h1.symm, fun k hk1 hk2 => by omega⟩
      · by_cases h2 : ix + 1 < count
        · rw [if_neg h1, if_pos h2]
          obtain ⟨a1, a2, a3, a4⟩ := ihn (ix + 1) (by omega)
          refine ⟨by omega, fun _ => a2 h2, a3, fun k hk1 hk2 => ?_⟩
          by_cases hk : k = ix
          · subst hk
            exact fun he => h1 he.symm
          · exact a4 k (by omega) hk2
        · rw [if_neg h1, if_neg h2]
          refine ⟨by omega, fun h => by omega, fun h => by omega, fun k hk1 hk2 => ?_⟩
          have : k = ix := by omega
          subst this
          exact fun he => h1 he.symm
  exact fun ix => H (count - ix) ix (le_refl _)

/-- C9: dispatch always selects the first-registered matching entry: if some
entry is selected, its name matches the command word and no earlier slot
does; hence when two slots `i < j` hold the same name, slot `j` is never
invoked by dispatch. -/
theorem c9_first_match_wins (st : CL) (i j : Nat)
    (hij : i < j) (hj : j < st.handlerCount)
    (hdup : st.cmds.getD i [] = st.cmds.getD j []) :
    (∀ r, (process st).2 = Dispatch.table r →
      st.cmds.getD r [] = getWord (trim st.commandLine) 0 ∧
      ∀ k, k < r → st.cmds.getD k [] ≠ getWord (trim st.commandLine) 0) ∧
    (process st).2 ≠ Dispatch.table j := by
  have hmain : ∀ r, (process st).2 = Dispatch.table r →
      st.cmds.getD r [] = getWord (trim st.commandLine) 0 ∧
      ∀ k, k < r → st.cmds.getD k [] ≠ getWord (trim st.commandLine) 0 := by
    intro r hr
    unfold process at hr
    dsimp only at hr
    split_ifs at hr with hlen hix
    · dsimp only at hr
      rw [Dispatch.table.injEq] at hr
      obtain ⟨a1, a2, a3, a4⟩ :=
        scan_spec st.cmds st.handlerCount (getWord (trim st.commandLine) 0) 0
      rw [hr] at a2 a3 a4
      rw [hr] at hix
      have hrc : r < st.handlerCount := by
        have hle := a2 (by omega)
        omega
      exact ⟨a3 hrc, fun k hk => a4 k (Nat.zero_le k) hk⟩
  refine ⟨hmain, fun hr => ?_⟩
  obtain ⟨hmatch, hmin⟩ := hmain j hr
  exact hmin i hij (hdup.trans hmatch)

/-- Witness for `c9_first_match_wins` at a concrete duplicate table. -/
theorem c9_first_match_wins_witness :
    (process { (attachCmdHandler (attachCmdHandler (initState true) ['d']).1 ['d']).1 with
        commandLine := ['d'] }).2 = Dispatch.table 0 ∧
    (process { (attachCmdHandler (attachCmdHandler (initState true) ['d']).1 ['d']).1 with
        commandLine := ['d'] }).2 ≠ Dispatch.table 1 := by
  refine ⟨by decide, ?_⟩
  exact (c9_first_match_wins
    { (attachCmdHandler (attachCmdHandler (initState true) ['d']).1 ['d']).1 with
        commandLine := ['d'] } 0 1 (by decide) (by decide) (by decide)).2

theorem wordsOfAux_ne (cs : List Char) :
    ∀ cur : List Char, cur ≠ [] →
      wordsOfAux cur cs = (cur.reverse ++ takeWordChars cs) :: wordsOf (skipWord cs) := by
  induction cs with
  | nil =>
    intro cur h
    simp [wordsOfAux, takeWordChars, skipWord, wordsOf, h]
  | cons c cs ih =>
    intro cur h
    by_cases hc : c = ' '
    · subst hc
      simp [wordsOfAux, takeWordChars, skipWord, wordsOf, h]
    · rw [show wordsOfAux cur (c :: cs) = wordsOfAux (c :: cur) cs from by
        simp [wordsOfAux, hc]]
      rw [ih (c :: cur) (List.cons_ne_nil c cur)]
      simp [takeWordChars, skipWord, hc]

theorem wordsOf_cons_ne (c : Char) (cs : List Char) (h : c ≠ ' ') :
    wordsOf (c :: cs) = (c :: takeWordChars cs) :: wordsOf (skipWord cs) := by
  unfold wordsOf
  simp only [wordsOfAux, if_neg h]
  rw [wordsOfAux_ne cs [c] (List.cons_ne_nil c [])]
  rfl

theorem wordsOf_skipSpaces (l : List Char) : wordsOf (skipSpaces l) = wordsOf l := by
  induction l with
  | nil => rfl
  | cons c cs ih =>
    by_cases hc : c = ' '
    · subst hc
      have h3 : skipSpaces (' ' :: cs) = skipSpaces cs := by simp [skipSpaces]
      have h2 : wordsOf (' ' :: cs) = wordsOf cs := by simp [wordsOf, wordsOfAux]
      rw [h3, ih, h2]
    · simp [skipSpaces, hc]

theorem skipSpaces_head_ne (l : List Char) :
    ∀ c cs, skipSpaces l = c :: cs → c ≠ ' ' := by
  induction l with
  | nil => intro c cs h; exact absurd h (by simp [skipSpaces])
  | cons a as ih =>
    intro c cs h
    by_cases ha : a = ' '
    · subst ha
      rw [skipSpaces, if_pos rfl] at h
      exact ih c cs h
    · rw [skipSpaces, if_neg ha] at h
      rw [← (List.cons.injEq a as c cs).mp h |>.1]
      exact ha

theorem getWord_eq_wordsOf (ix : Nat) : ∀ l : List Char,
    getWord l ix = (wordsOf l).getD ix [] := by
  induction ix with
  | zero =>
    intro l
    induction l with
    | nil => rfl
    | cons c cs ihl =>
      by_cases hc : c = ' '
      · subst hc
        have h3 : skipSpaces (' ' :: cs) = skipSpaces cs := by simp [skipSpaces]
        have h2 : wordsOf (' ' :: cs) = wordsOf cs := by simp [wordsOf, wordsOfAux]
        show takeWordChars (skipSpaces (' ' :: cs)) = (wordsOf (' ' :: cs)).getD 0 []
        rw [h3, h2]
        exact ihl
      · show takeWordChars (skipSpaces (c :: cs)) = (wordsOf (c :: cs)).getD 0 []
        rw [show skipSpaces (c :: cs) = c :: cs from by simp [skipSpaces, hc]]
        rw [wordsOf_cons_ne c cs hc]
        simp [takeWordChars, hc]
  | succ ix ih =>
    intro l
    simp only [getWord]
    rw [ih]
    rcases hss : skipSpaces l with - | ⟨c, cs⟩
    · have h1 : wordsOf l = [] := by
        rw [← wordsOf_skipSpaces l, hss]
        rfl
      rw [h1]
      simp [skipWord, wordsOf, wordsOfAux]
    · have hc : c ≠ ' ' := skipSpaces_head_ne l c cs hss
      have h1 : wordsOf l = (c :: takeWordChars cs) :: wordsOf (skipWord (c :: cs)) := by
        rw [← wordsOf_skipSpaces l, hss, wordsOf_cons_ne c cs hc]
        simp [skipWord, hc]
      rw [h1]
      simp [skipWord, hc]

/-- C6: `getWord(ix)` on the finished line returns the `ix`-th word, where
words are the maximal runs of non-space characters separated by runs of
spaces, and the empty string when `ix` is past the last word; concretely,
after accepting `" echo 42\r"` the stored line is the trimmed `"echo 42"`
and `getWord` yields `"echo"`, `"42"` and `""` for indices 0, 1, 2. -/
theorem c6_getWord_returns_ith_word (l : List Char) (ix : Nat) :
    getWord l ix = (wordsOf l).getD ix [] ∧
    ((run (initState false) (" echo 42\r".toList)).state.commandLine = "echo 42".toList ∧
     getWord ((run (initState false) (" echo 42\r".toList)).state.commandLine) 0
       = "echo".toList ∧
     getWord ((run (initState false) (" echo 42\r".toList)).state.commandLine) 1
       = "42".toList ∧
     getWord ((run (initState false) (" echo 42\r".toList)).state.commandLine) 2 = []) :=
  ⟨getWord_eq_wordsOf ix l, by decide, by decide, by decide, by decide⟩

/-- C4: in the String-returning handler contract (modelled from the spec in
`processV1` because the V1.0.0 dispatch body is not among the sources), the
bytes the dispatcher writes on a handler invocation are exactly the string
the handler returned — verbatim, unmodified, with no implicit trailing
newline appended: when lookup selects table entry `i` the output is
`handlers i` itself, and when no entry matches and a default is registered
the output is the default handler's returned string itself. -/
theorem c4_response_written_verbatim (st : CL) (handlers : Nat → List Char)
    (dfltResp : List Char)
    (hw : (getWord (trim st.commandLine) 0).length ≠ 0) :
    (∀ i, (List.range st.handlerCount).find?
        (fun ix => st.cmds.getD ix [] = getWord (trim st.commandLine) 0) = some i →
      (processV1 st handlers dfltResp).2 = handlers i) ∧
    ((List.range st.handlerCount).find?
        (fun ix => st.cmds.getD ix [] = getWord (trim st.commandLine) 0) = none →
      st.hasDefault = true →
      (processV1 st handlers dfltResp).2 = dfltResp) := by
  constructor
  · intro i hf
    unfold processV1
    dsimp only
    rw [if_neg hw, hf]
  · intro hf hd
    unfold processV1
    dsimp only
    rw [if_neg hw, hf, if_pos hd]

/-- Witness for `c4_response_written_verbatim` at a concrete table. -/
theorem c4_response_written_verbatim_witness :
    (processV1 { (attachCmdHandler (initState true) ("hi".toList)).1 with
        commandLine := "hi".toList } (fun _ => "OK".toList) ("D".toList)).2
      = "OK".toList :=
  (c4_response_written_verbatim
    { (attachCmdHandler (initState true) ("hi".toList)).1 with commandLine := "hi".toList }
    (fun _ => "OK".toList) ("D".toList) (by decide)).1 0 (by decide)

end CmdLn
